import Mathlib

/-!
Verification of the TGUI repository against its natural-language
specification.

The repository sources consist of the full implementation of the
SpinButton widget together with the interface header of the TextBox
widget.  The SpinButton part is embedded directly from the code in
SpinButton.cpp.  The TextBox behaviour is only declared in the header
found in the sources; its implementation file is not part of the
sources, so the TextBox operations below are modelled from the
specification, as indicated by the doc comments.

Pixel widths are modelled as natural numbers produced by an abstract
character-width measurement oracle, matching the role of the width
measurement oracle described in the specification.
-/

namespace TGUI

/-- Modelled from the spec: the whitespace test used by the word-wrap of
TextBox::rearrangeText, whose implementation is missing from the
sources.  Whitespace characters are the space and the tab. -/
def isWs (c : Char) : Bool := c == ' ' || c == '\t'

/-- Measured pixel width of one wrapped line: sum of the widths that the
measurement oracle cw assigns to its characters. -/
def lineWidth (cw : Char → Nat) (l : List Char) : Nat := (l.map cw).sum

/-- Modelled from the spec: the greedy fill of the word-wrap in
TextBox::rearrangeText (implementation missing from the sources).
Counts how many leading characters fit when the line already occupies
acc pixels: characters are accumulated while the running width stays
within W. -/
def greedyLen (cw : Char → Nat) (W : Nat) : List Char → Nat → Nat
  | [], _ => 0
  | c :: rest, acc =>
    if acc + cw c ≤ W then greedyLen cw W rest (acc + cw c) + 1 else 0

/-- Modelled from the spec: the whitespace-boundary correction of the
word-wrap in TextBox::rearrangeText (implementation missing from the
sources).  When the character following the greedy fill is not
whitespace and the filled line contains a whitespace, the line is broken
after its last whitespace so that the partial word moves to the next
line; a line holding only a prefix of a single unbreakable word is kept
as the hard break. -/
def breakAtLastWs (line0 rest0 : List Char) : List Char × List Char :=
  match rest0 with
  | [] => (line0, [])
  | c :: _ =>
    if isWs c then (line0, rest0)
    else if line0.any isWs then
      ((line0.reverse.dropWhile (fun x => !(isWs x))).reverse,
       (line0.reverse.takeWhile (fun x => !(isWs x))).reverse ++ rest0)
    else (line0, rest0)

/-- Modelled from the spec: one step of the word-wrap of
TextBox::rearrangeText (implementation missing from the sources).
Splits off the first wrapped line of a newline-free paragraph: greedy
fill of at least one character, followed by the whitespace-boundary
correction. -/
def takeLine (cw : Char → Nat) (W : Nat) (s : List Char) : List Char × List Char :=
  breakAtLastWs (s.take (max (greedyLen cw W s 0) 1)) (s.drop (max (greedyLen cw W s 0) 1))

/-- Modelled from the spec: the word-wrap loop of TextBox::rearrangeText
(implementation missing from the sources), written with explicit fuel so
that it is structurally recursive.  The fuel is always instantiated with
more than the length of the paragraph, which suffices because every step
consumes at least one character. -/
def wrapParaFuel (cw : Char → Nat) (W : Nat) : Nat → List Char → List (List Char)
  | 0, _ => []
  | fuel + 1, s =>
    if s = [] then [[]]
    else if (takeLine cw W s).2 = [] then [(takeLine cw W s).1]
    else (takeLine cw W s).1 :: wrapParaFuel cw W fuel (takeLine cw W s).2

/-- Modelled from the spec: word-wrap of one newline-free paragraph by
TextBox::rearrangeText (implementation missing from the sources): greedy
fill, break at the last whitespace boundary before the limit, hard break
inside a single word that does not fit, and one empty line for the empty
paragraph. -/
def wrapPara (cw : Char → Nat) (W : Nat) (s : List Char) : List (List Char) :=
  wrapParaFuel cw W (s.length + 1) s

/-- Modelled from the spec: the split of the text at explicit newline
characters performed by TextBox::rearrangeText before (or instead of)
the width-based word-wrap; the implementation is missing from the
sources.  An explicit newline always forces a line break, and the empty
text gives one empty line. -/
def splitOnNl : List Char → List (List Char)
  | [] => [[]]
  | c :: rest =>
    if c = '\n' then [] :: splitOnNl rest
    else
      match splitOnNl rest with
      | [] => [[c]]
      | l :: ls => (c :: l) :: ls

/-- Concatenation of a list of lines that re-inserts one newline between
consecutive lines; the inverse of splitting the text at hard breaks. -/
def joinWithNl : List (List Char) → List Char
  | [] => []
  | l :: ls => l ++ (if ls.isEmpty then [] else '\n' :: joinWithNl ls)

/-- Modelled from the spec: the wrapped-line table of
TextBox::rearrangeText (implementation missing from the sources), kept
with the paragraph structure: the text is split at explicit newlines and
each paragraph is word-wrapped by width. -/
def wrapStruct (cw : Char → Nat) (W : Nat) (t : List Char) : List (List (List Char)) :=
  (splitOnNl t).map (wrapPara cw W)

/-- Modelled from the spec: the line list m_lines computed by
TextBox::rearrangeText (implementation missing from the sources).  When
the horizontal scrollbar is enabled the text is broken only at explicit
newline characters; otherwise every paragraph is additionally
word-wrapped into the available width W. -/
def wrap (cw : Char → Nat) (W : Nat) (horizontalScrollEnabled : Bool) (t : List Char) :
    List (List Char) :=
  if horizontalScrollEnabled then splitOnNl t else (wrapStruct cw W t).flatten

/-- Modelled from the spec: the member m_maxLineWidth of TextBox, the
width of the largest line, computed by rearrangeText for the range of
the horizontal scrollbar (implementation missing from the sources). -/
def maxLineWidth (cw : Char → Nat) (lines : List (List Char)) : Nat :=
  (lines.map (lineWidth cw)).foldr max 0

/-- Scrollbar display policy of the TextBox, from the header: Automatic,
Always or Never. -/
inductive ScrollbarPolicy where
  | Automatic
  | Always
  | Never
deriving DecidableEq

/-- Horizontal scrolling is enabled exactly when the horizontal
scrollbar policy is Always or Automatic; with the default policy Never,
word-wrap keeps the text within the TextBox. -/
def horizontalScrollEnabled (p : ScrollbarPolicy) : Bool :=
  match p with
  | ScrollbarPolicy.Never => false
  | ScrollbarPolicy.Always => true
  | ScrollbarPolicy.Automatic => true

/-- Modelled from the spec: the observable state of a TextBox
(implementation missing from the sources; the header declares the
members).  The selection positions are kept as absolute character
indices, following the data-model invariant of the specification that
re-wrap preserves the character offset into the full text; m_selEnd is
the caret. -/
structure TextBoxState where
  m_text : List Char
  m_maxChars : Nat
  m_selStart : Nat
  m_selEnd : Nat
  m_readOnly : Bool
deriving DecidableEq

/-- Modelled from the spec: a freshly constructed TextBox with empty
text, no character limit, a collapsed selection at the origin and
writable contents. -/
def TextBoxState.init : TextBoxState :=
  { m_text := [], m_maxChars := 0, m_selStart := 0, m_selEnd := 0, m_readOnly := false }

/-- Returns the text currently inside the text box. -/
def TextBoxState.getText (st : TextBoxState) : List Char := st.m_text

/-- Modelled from the spec: TextBox::setText replaces the whole text,
capping it at the maximum character limit when one is set, and resets
the selection to the origin; it works even in read-only mode. -/
def TextBoxState.setText (st : TextBoxState) (t : List Char) : TextBoxState :=
  { st with
    m_text := if st.m_maxChars = 0 then t else t.take st.m_maxChars,
    m_selStart := 0, m_selEnd := 0 }

/-- Modelled from the spec: TextBox::addText appends text to the text
already in the box, subject to the same maximum character limit. -/
def TextBoxState.addText (st : TextBoxState) (t : List Char) : TextBoxState :=
  st.setText (st.m_text ++ t)

/-- Modelled from the spec: TextBox::setMaximumCharacters stores the new
limit (0 disables it) and crops the existing text and selection indices
to it. -/
def TextBoxState.setMaximumCharacters (st : TextBoxState) (maxChars : Nat) : TextBoxState :=
  let t := if maxChars = 0 then st.m_text else st.m_text.take maxChars
  { st with
    m_maxChars := maxChars, m_text := t,
    m_selStart := min st.m_selStart t.length,
    m_selEnd := min st.m_selEnd t.length }

/-- Returns the maximum character limit, 0 meaning no limit. -/
def TextBoxState.getMaximumCharacters (st : TextBoxState) : Nat := st.m_maxChars

/-- Modelled from the spec: TextBox::setCaretPosition clamps the
requested index to the text length and sets both the selection start and
the selection end to it. -/
def TextBoxState.setCaretPosition (st : TextBoxState) (charactersBeforeCaret : Nat) :
    TextBoxState :=
  { st with
    m_selStart := min charactersBeforeCaret st.m_text.length,
    m_selEnd := min charactersBeforeCaret st.m_text.length }

/-- Returns the caret position; by the header this is an alias for
getSelectionEnd. -/
def TextBoxState.getCaretPosition (st : TextBoxState) : Nat := st.m_selEnd

/-- Modelled from the spec: TextBox::setSelectedText stores the two
indices, each clamped to the text length; a backward selection, with the
start behind the end, is kept as such. -/
def TextBoxState.setSelectedText (st : TextBoxState) (selectionStartIndex selectionEndIndex : Nat) :
    TextBoxState :=
  { st with
    m_selStart := min selectionStartIndex st.m_text.length,
    m_selEnd := min selectionEndIndex st.m_text.length }

/-- Returns the amount of characters before the start of the selection. -/
def TextBoxState.getSelectionStart (st : TextBoxState) : Nat := st.m_selStart

/-- Returns the amount of characters before the end of the selection. -/
def TextBoxState.getSelectionEnd (st : TextBoxState) : Nat := st.m_selEnd

/-- Lower end of the selection in text order. -/
def TextBoxState.selLo (st : TextBoxState) : Nat := min st.m_selStart st.m_selEnd

/-- Upper end of the selection in text order. -/
def TextBoxState.selHi (st : TextBoxState) : Nat := max st.m_selStart st.m_selEnd

/-- Modelled from the spec: TextBox::getSelectedText returns the part of
the text between the two selection indices, in text order. -/
def TextBoxState.getSelectedText (st : TextBoxState) : List Char :=
  (st.m_text.drop st.selLo).take (st.selHi - st.selLo)

/-- Modelled from the spec: TextBox::deleteSelectedCharacters removes
the selected range and collapses the selection at its lower end. -/
def TextBoxState.deleteSelectedCharacters (st : TextBoxState) : TextBoxState :=
  { st with
    m_text := st.m_text.take st.selLo ++ st.m_text.drop st.selHi,
    m_selStart := st.selLo, m_selEnd := st.selLo }

/-- Modelled from the spec: TextBox::textEntered, the typed-character
handler.  It is ignored in read-only mode; otherwise it replaces the
active selection, rejects the character when a non-zero maximum would be
exceeded, and else inserts the character at the caret. -/
def TextBoxState.textEntered (st : TextBoxState) (key : Char) : TextBoxState :=
  if st.m_readOnly then st
  else
    let st1 := if st.m_selStart = st.m_selEnd then st else st.deleteSelectedCharacters
    if st1.m_maxChars ≠ 0 ∧ st1.m_maxChars < st1.m_text.length + 1 then st1
    else
      { st1 with
        m_text := st1.m_text.take st1.m_selEnd ++ key :: st1.m_text.drop st1.m_selEnd,
        m_selStart := st1.m_selEnd + 1, m_selEnd := st1.m_selEnd + 1 }

/-- Modelled from the spec: the Backspace key handler.  Ignored in
read-only mode; otherwise it deletes the active selection, or the
character before the caret when the selection is empty. -/
def TextBoxState.backspaceKeyPressed (st : TextBoxState) : TextBoxState :=
  if st.m_readOnly then st
  else if st.m_selStart ≠ st.m_selEnd then st.deleteSelectedCharacters
  else if st.m_selEnd = 0 then st
  else
    { st with
      m_text := st.m_text.take (st.m_selEnd - 1) ++ st.m_text.drop st.m_selEnd,
      m_selStart := st.m_selEnd - 1, m_selEnd := st.m_selEnd - 1 }

/-- Modelled from the spec: the Delete key handler.  Ignored in
read-only mode; otherwise it deletes the active selection, or the
character after the caret when the selection is empty. -/
def TextBoxState.deleteKeyPressed (st : TextBoxState) : TextBoxState :=
  if st.m_readOnly then st
  else if st.m_selStart ≠ st.m_selEnd then st.deleteSelectedCharacters
  else
    { st with
      m_text := st.m_text.take st.m_selEnd ++ st.m_text.drop (st.m_selEnd + 1) }

/-- Modelled from the spec: TextBox::selectAllText sets the selection
anchor to the start of the text and the caret to its end; it remains
active in read-only mode. -/
def TextBoxState.selectAllText (st : TextBoxState) : TextBoxState :=
  { st with m_selStart := 0, m_selEnd := st.m_text.length }

/-- Modelled from the spec: the paste handler.  Ignored in read-only
mode; otherwise it replaces the active selection with the clipboard
text, silently truncating the insertion so that a non-zero maximum is
never exceeded. -/
def TextBoxState.pasteTextFromClipboard (st : TextBoxState) (clipboard : List Char) :
    TextBoxState :=
  if st.m_readOnly then st
  else
    let st1 := if st.m_selStart = st.m_selEnd then st else st.deleteSelectedCharacters
    let ins := if st1.m_maxChars = 0 then clipboard
      else clipboard.take (st1.m_maxChars - st1.m_text.length)
    { st1 with
      m_text := st1.m_text.take st1.m_selEnd ++ ins ++ st1.m_text.drop st1.m_selEnd,
      m_selStart := st1.m_selEnd + ins.length, m_selEnd := st1.m_selEnd + ins.length }

/-- Modelled from the spec: TextBox::getLinesCount, the number of lines
after word-wrap, for given font metrics, wrap width and horizontal
scrollbar state. -/
def TextBoxState.getLinesCount (cw : Char → Nat) (W : Nat) (horiz : Bool)
    (st : TextBoxState) : Nat :=
  (wrap cw W horiz st.m_text).length

/-- Typing a sequence of characters one by one through textEntered. -/
def TextBoxState.typeAll (st : TextBoxState) (keys : List Char) : TextBoxState :=
  keys.foldl TextBoxState.textEntered st

/-- The text length never exceeds a non-zero maximum character limit; a
limit of 0 means unlimited. -/
def TextBoxState.capOk (st : TextBoxState) : Prop :=
  st.m_maxChars = 0 ∨ st.m_text.length ≤ st.m_maxChars

/-- State of a SpinButton, from SpinButton.cpp: the bounds and value are
unsigned integers, here embedded as naturals since none of the embedded
operations can overflow; the orientation and mouse bookkeeping are the
members used by the mouse handlers. -/
structure SpinButton where
  m_minimum : Nat
  m_maximum : Nat
  m_value : Nat
  m_verticalScroll : Bool
  m_mouseDown : Bool
  m_mouseDownOnTopArrow : Bool
deriving DecidableEq

/-- The default constructor SpinButton::SpinButton from SpinButton.cpp:
vertical orientation, minimum 0, maximum 10, value 0, and no mouse
interaction recorded yet. -/
def SpinButton.init : SpinButton :=
  { m_minimum := 0, m_maximum := 10, m_value := 0,
    m_verticalScroll := true, m_mouseDown := false, m_mouseDownOnTopArrow := false }

/-- SpinButton::setMinimum from SpinButton.cpp: store the new minimum,
raise the maximum up to it when it was smaller, and raise the value up
to it when it was smaller. -/
def SpinButton.setMinimum (s : SpinButton) (minimum : Nat) : SpinButton :=
  let s1 := { s with m_minimum := minimum }
  let s2 := if s1.m_maximum < s1.m_minimum then { s1 with m_maximum := s1.m_minimum } else s1
  if s2.m_value < s2.m_minimum then { s2 with m_value := s2.m_minimum } else s2

/-- SpinButton::setMaximum from SpinButton.cpp: store the new maximum,
lower the minimum down to it when it was larger, and lower the value
down to it when it was larger. -/
def SpinButton.setMaximum (s : SpinButton) (maximum : Nat) : SpinButton :=
  let s1 := { s with m_maximum := maximum }
  let s2 := if s1.m_maximum < s1.m_minimum then { s1 with m_minimum := s1.m_maximum } else s1
  if s2.m_maximum < s2.m_value then { s2 with m_value := s2.m_maximum } else s2

/-- SpinButton::setValue from SpinButton.cpp: store the requested value
and clamp it into the interval between the minimum and the maximum. -/
def SpinButton.setValue (s : SpinButton) (value : Nat) : SpinButton :=
  let s1 := { s with m_value := value }
  if s1.m_value < s1.m_minimum then { s1 with m_value := s1.m_minimum }
  else if s1.m_maximum < s1.m_value then { s1 with m_value := s1.m_maximum }
  else s1

/-- SpinButton::leftMousePressed from SpinButton.cpp.  The geometric
hit test is abstracted into the boolean containsFirstHalf, which states
whether the mouse position lies inside the first-half rectangle of the
widget: the top half for a vertical spin button, the left half for a
horizontal one.  The top or right arrow is recorded as pressed exactly
when the vertical button is hit in its top half or the horizontal button
is hit outside its left half. -/
def SpinButton.leftMousePressed (s : SpinButton) (containsFirstHalf : Bool) : SpinButton :=
  { s with
    m_mouseDown := true,
    m_mouseDownOnTopArrow :=
      if s.m_verticalScroll then containsFirstHalf else !containsFirstHalf }

/-- SpinButton::leftMouseReleased from SpinButton.cpp, with the same
hit-test abstraction as leftMousePressed, and with callbackBound
standing for the list of bound ValueChanged callback functions being
non-empty.  The returned boolean reports whether the ValueChanged
callback was triggered.  The value is incremented when the press and the
release both hit the top or right arrow and the value is below the
maximum, decremented when both hit the bottom or left arrow and the
value is above the minimum, and left unchanged in every other case, in
which the handler returns early and triggers no callback. -/
def SpinButton.leftMouseReleased (s : SpinButton) (containsFirstHalf : Bool)
    (callbackBound : Bool) : SpinButton × Bool :=
  if s.m_mouseDown then
    let s0 := { s with m_mouseDown := false }
    if s0.m_mouseDownOnTopArrow then
      if (s0.m_verticalScroll && containsFirstHalf)
          || (!s0.m_verticalScroll && !containsFirstHalf) then
        if s0.m_value < s0.m_maximum then
          ({ s0 with m_value := s0.m_value + 1 }, callbackBound)
        else (s0, false)
      else (s0, false)
    else
      if (s0.m_verticalScroll && !containsFirstHalf)
          || (!s0.m_verticalScroll && containsFirstHalf) then
        if s0.m_minimum < s0.m_value then
          ({ s0 with m_value := s0.m_value - 1 }, callbackBound)
        else (s0, false)
      else (s0, false)
  else (s, false)

/-- The release hits the same arrow as the recorded press exactly when
this predicate agrees with m_mouseDownOnTopArrow: for a vertical button
the first-half hit means the top arrow, for a horizontal one it means
the left arrow, whose opposite is the right arrow. -/
def SpinButton.releaseOnTopArrow (s : SpinButton) (containsFirstHalf : Bool) : Bool :=
  if s.m_verticalScroll then containsFirstHalf else !containsFirstHalf

/-- The invariant of the SpinButton bounds: the value always lies
between the minimum and the maximum. -/
def SpinButton.Inv (s : SpinButton) : Prop :=
  s.m_minimum ≤ s.m_value ∧ s.m_value ≤ s.m_maximum

@[simp] theorem lineWidth_nil (cw : Char → Nat) : lineWidth cw [] = 0 := rfl

@[simp] theorem lineWidth_cons (cw : Char → Nat) (c : Char) (l : List Char) :
    lineWidth cw (c :: l) = cw c + lineWidth cw l := rfl

theorem lineWidth_append (cw : Char → Nat) (a b : List Char) :
    lineWidth cw (a ++ b) = lineWidth cw a + lineWidth cw b := by
  induction a with
  | nil => simp
  | cons c t ih => simp [ih, Nat.add_assoc]

theorem breakAtLastWs_append (a b : List Char) :
    (breakAtLastWs a b).1 ++ (breakAtLastWs a b).2 = a ++ b := by
  unfold breakAtLastWs
  match b with
  | [] => simp
  | c :: t =>
    by_cases hws : isWs c
    · simp [hws]
    · by_cases hany : a.any isWs
      · simp only [hws, hany, Bool.false_eq_true, if_false, if_true]
        rw [← List.append_assoc, ← List.reverse_append, List.takeWhile_append_dropWhile,
          List.reverse_reverse]
      · simp [hws, hany]

theorem dropWhile_ne_nil_of_any {p : Char → Bool} :
    ∀ {l : List Char}, l.any p = true → l.dropWhile (fun x => !(p x)) ≠ [] := by
  intro l
  induction l with
  | nil => simp
  | cons c t ih =>
    intro hany
    by_cases hc : p c
    · simp [List.dropWhile, hc]
    · simp only [List.any_cons, hc, Bool.false_or] at hany
      simp [List.dropWhile, hc, ih hany]

theorem breakAtLastWs_fst_ne_nil {a : List Char} (b : List Char) (ha : a ≠ []) :
    (breakAtLastWs a b).1 ≠ [] := by
  unfold breakAtLastWs
  match b with
  | [] => simpa
  | c :: t =>
    by_cases hws : isWs c
    · simpa [hws]
    · by_cases hany : a.any isWs
      · simp only [hws, hany, Bool.false_eq_true, if_false, if_true]
        have : a.reverse.any isWs = true := by
          rw [List.any_eq_true] at hany ⊢
          obtain ⟨x, hx, hpx⟩ := hany
          exact ⟨x, List.mem_reverse.mpr hx, hpx⟩
        have hdw := dropWhile_ne_nil_of_any this
        simpa using hdw
      · simpa [hws, hany]

theorem breakAtLastWs_fst_width (cw : Char → Nat) (a b : List Char) :
    lineWidth cw (breakAtLastWs a b).1 ≤ lineWidth cw a := by
  unfold breakAtLastWs
  match b with
  | [] => simp
  | c :: t =>
    by_cases hws : isWs c
    · simp [hws]
    · by_cases hany : a.any isWs
      · simp only [hws, hany, Bool.false_eq_true, if_false, if_true]
        have hsplit : (a.reverse.dropWhile (fun x => !(isWs x))).reverse
            ++ (a.reverse.takeWhile (fun x => !(isWs x))).reverse = a := by
          rw [← List.reverse_append, List.takeWhile_append_dropWhile, List.reverse_reverse]
        calc lineWidth cw (a.reverse.dropWhile (fun x => !(isWs x))).reverse
            ≤ lineWidth cw ((a.reverse.dropWhile (fun x => !(isWs x))).reverse
                ++ (a.reverse.takeWhile (fun x => !(isWs x))).reverse) := by
              rw [lineWidth_append]; exact Nat.le_add_right _ _
          _ = lineWidth cw a := by rw [hsplit]
      · simp [hws, hany]

theorem breakAtLastWs_fst_of_singleton (c : Char) (b : List Char) :
    (breakAtLastWs [c] b).1 = [c] := by
  unfold breakAtLastWs
  match b with
  | [] => simp
  | d :: t =>
    by_cases hws : isWs d
    · simp [hws]
    · by_cases hc : isWs c
      · simp [hws, hc, List.dropWhile, List.any]
      · simp [hws, hc, List.any]

theorem takeLine_append (cw : Char → Nat) (W : Nat) (s : List Char) :
    (takeLine cw W s).1 ++ (takeLine cw W s).2 = s := by
  unfold takeLine
  rw [breakAtLastWs_append, List.take_append_drop]

theorem takeLine_fst_ne_nil (cw : Char → Nat) (W : Nat) {s : List Char} (hs : s ≠ []) :
    (takeLine cw W s).1 ≠ [] := by
  unfold takeLine
  apply breakAtLastWs_fst_ne_nil
  match s with
  | c :: t =>
    have h1 : 1 ≤ max (greedyLen cw W (c :: t) 0) 1 := Nat.le_max_right _ _
    intro h
    have := congrArg List.length h
    simp only [List.length_take, List.length_nil, List.length_cons] at this
    omega

theorem takeLine_snd_lt (cw : Char → Nat) (W : Nat) {s : List Char} (hs : s ≠ []) :
    (takeLine cw W s).2.length < s.length := by
  have happ := takeLine_append cw W s
  have hne := takeLine_fst_ne_nil cw W hs
  have := congrArg List.length happ
  simp only [List.length_append] at this
  have hfst : 0 < (takeLine cw W s).1.length := List.length_pos.mpr hne
  omega

theorem greedy_width (cw : Char → Nat) (W : Nat) :
    ∀ (s : List Char) (acc : Nat), acc ≤ W →
      acc + lineWidth cw (s.take (greedyLen cw W s acc)) ≤ W := by
  intro s
  induction s with
  | nil => intro acc hacc; simpa [greedyLen]
  | cons c t ih =>
    intro acc hacc
    by_cases h : acc + cw c ≤ W
    · have := ih (acc + cw c) h
      simp only [greedyLen, h, if_true, List.take_succ_cons, lineWidth_cons]
      omega
    · simpa [greedyLen, h]

theorem greedyLen_zero {cw : Char → Nat} {W : Nat} {c : Char} {t : List Char}
    (h : greedyLen cw W (c :: t) 0 = 0) : W < cw c := by
  by_contra hlt
  push_neg at hlt
  have hc : 0 + cw c ≤ W := by omega
  simp [greedyLen, hc] at h
  omega

theorem takeLine_fst_width (cw : Char → Nat) (W : Nat) {s : List Char} (hs : s ≠ []) :
    lineWidth cw (takeLine cw W s).1 ≤ W ∨
      ∃ c, (takeLine cw W s).1 = [c] ∧ W < cw c := by
  match s with
  | c :: t =>
    by_cases hg : greedyLen cw W (c :: t) 0 = 0
    · right
      refine ⟨c, ?_, greedyLen_zero hg⟩
      unfold takeLine
      rw [hg]
      simpa using breakAtLastWs_fst_of_singleton c t
    · left
      have hmax : max (greedyLen cw W (c :: t) 0) 1 = greedyLen cw W (c :: t) 0 := by omega
      have hw := greedy_width cw W (c :: t) 0 (Nat.zero_le W)
      unfold takeLine
      rw [hmax]
      calc lineWidth cw (breakAtLastWs ((c :: t).take (greedyLen cw W (c :: t) 0))
              ((c :: t).drop (greedyLen cw W (c :: t) 0))).1
          ≤ lineWidth cw ((c :: t).take (greedyLen cw W (c :: t) 0)) :=
            breakAtLastWs_fst_width cw _ _
        _ ≤ W := by omega

theorem wrapParaFuel_flatten (cw : Char → Nat) (W : Nat) :
    ∀ (fuel : Nat) (s : List Char), s.length < fuel →
      (wrapParaFuel cw W fuel s).flatten = s := by
  intro fuel
  induction fuel with
  | zero => intro s h; omega
  | succ n ih =>
    intro s h
    by_cases hs : s = []
    · simp [wrapParaFuel, hs]
    · by_cases hrest : (takeLine cw W s).2 = []
      · have := takeLine_append cw W s
        rw [hrest, List.append_nil] at this
        simp [wrapParaFuel, hs, hrest, this]
      · have hlt := takeLine_snd_lt cw W hs
        have hrec := ih (takeLine cw W s).2 (by omega)
        simp only [wrapParaFuel, hs, hrest, if_false, List.flatten_cons]
        rw [hrec, takeLine_append]

theorem wrapParaFuel_width (cw : Char → Nat) (W : Nat) :
    ∀ (fuel : Nat) (s : List Char), s.length < fuel →
      ∀ l ∈ wrapParaFuel cw W fuel s,
        lineWidth cw l ≤ W ∨ ∃ c, l = [c] ∧ W < cw c := by
  intro fuel
  induction fuel with
  | zero => intro s h; omega
  | succ n ih =>
    intro s h l hl
    by_cases hs : s = []
    · simp [wrapParaFuel, hs] at hl
      subst hl
      left
      simp
    · by_cases hrest : (takeLine cw W s).2 = []
      · simp only [wrapParaFuel, hs, hrest, if_false, if_true, List.mem_singleton] at hl
        subst hl
        exact takeLine_fst_width cw W hs
      · have hlt := takeLine_snd_lt cw W hs
        simp only [wrapParaFuel, hs, hrest, if_false, List.mem_cons] at hl
        rcases hl with hl | hl
        · subst hl
          exact takeLine_fst_width cw W hs
        · exact ih (takeLine cw W s).2 (by omega) l hl

theorem wrapPara_flatten (cw : Char → Nat) (W : Nat) (s : List Char) :
    (wrapPara cw W s).flatten = s :=
  wrapParaFuel_flatten cw W (s.length + 1) s (Nat.lt_succ_self _)

theorem wrapPara_width (cw : Char → Nat) (W : Nat) (s : List Char) :
    ∀ l ∈ wrapPara cw W s, lineWidth cw l ≤ W ∨ ∃ c, l = [c] ∧ W < cw c :=
  wrapParaFuel_width cw W (s.length + 1) s (Nat.lt_succ_self _)

theorem splitOnNl_ne_nil : ∀ (s : List Char), splitOnNl s ≠ [] := by
  intro s
  match s with
  | [] => simp [splitOnNl]
  | c :: rest =>
    by_cases h : c = '\n'
    · simp [splitOnNl, h]
    · simp only [splitOnNl, h, if_false]
      match splitOnNl rest with
      | [] => simp
      | l :: ls => simp

theorem joinWithNl_splitOnNl : ∀ (s : List Char), joinWithNl (splitOnNl s) = s := by
  intro s
  induction s with
  | nil => simp [splitOnNl, joinWithNl]
  | cons c rest ih =>
    by_cases h : c = '\n'
    · subst h
      simp only [splitOnNl, if_true]
      have hne := splitOnNl_ne_nil rest
      rw [joinWithNl]
      simp [List.isEmpty_iff, hne, ih]
    · obtain ⟨l, ls, hd⟩ := List.exists_cons_of_ne_nil (splitOnNl_ne_nil rest)
      rw [hd] at ih
      simp only [splitOnNl, h, if_false, hd]
      rw [joinWithNl] at ih ⊢
      simp only [List.cons_append]
      rw [ih]

theorem splitOnNl_no_nl : ∀ (s : List Char), ∀ l ∈ splitOnNl s, ('\n') ∉ l := by
  intro s
  induction s with
  | nil =>
    intro l hl
    simp [splitOnNl] at hl
    simp [hl]
  | cons c rest ih =>
    intro l hl
    by_cases h : c = '\n'
    · simp only [splitOnNl, h, if_true, List.mem_cons] at hl
      rcases hl with hl | hl
      · simp [hl]
      · exact ih l hl
    · obtain ⟨l0, ls, hd⟩ := List.exists_cons_of_ne_nil (splitOnNl_ne_nil rest)
      simp only [splitOnNl, h, if_false, hd, List.mem_cons] at hl
      rcases hl with hl | hl
      · subst hl
        intro hmem
        rcases List.mem_cons.mp hmem with hc | hc
        · exact h hc.symm
        · exact ih l0 (hd ▸ List.mem_cons_self l0 ls) hc
      · exact ih l (hd ▸ List.mem_cons_of_mem l0 hl)

theorem le_foldr_max_of_mem {x : Nat} : ∀ {l : List Nat}, x ∈ l → x ≤ l.foldr max 0 := by
  intro l
  induction l with
  | nil => simp
  | cons a t ih =>
    intro hx
    rcases List.mem_cons.mp hx with h | h
    · subst h
      exact Nat.le_max_left _ _
    · exact Nat.le_trans (ih h) (Nat.le_max_right _ _)

theorem foldr_max_mem : ∀ {l : List Nat}, l ≠ [] → l.foldr max 0 ∈ l := by
  intro l
  induction l with
  | nil => simp
  | cons a t ih =>
    intro _
    match t, ih with
    | [], _ => simp
    | b :: u, ih =>
      rcases Nat.le_total ((b :: u).foldr max 0) a with h | h
      · have hfold : (a :: b :: u).foldr max 0 = a := by
          rw [List.foldr_cons, Nat.max_eq_left h]
        rw [hfold]
        exact List.mem_cons_self _ _
      · have hfold : (a :: b :: u).foldr max 0 = (b :: u).foldr max 0 := by
          rw [List.foldr_cons, Nat.max_eq_right h]
        rw [hfold]
        exact List.mem_cons_of_mem a (ih (by simp))

theorem SpinButton.setMinimum_spec (s : SpinButton) (n : Nat) :
    (s.setMinimum n).m_minimum = n ∧ (s.setMinimum n).m_maximum = max n s.m_maximum
      ∧ (s.setMinimum n).m_value = max n s.m_value := by
  obtain ⟨mn, mx, v, vs, md, ta⟩ := s
  simp only [SpinButton.setMinimum]
  split_ifs <;> simp_all <;> omega

theorem SpinButton.setMaximum_spec (s : SpinButton) (n : Nat) :
    (s.setMaximum n).m_maximum = n ∧ (s.setMaximum n).m_minimum = min n s.m_minimum
      ∧ (s.setMaximum n).m_value = min n s.m_value := by
  obtain ⟨mn, mx, v, vs, md, ta⟩ := s
  simp only [SpinButton.setMaximum]
  split_ifs <;> simp_all <;> omega

theorem SpinButton.setValue_spec (s : SpinButton) (n : Nat) (h : s.m_minimum ≤ s.m_maximum) :
    (s.setValue n).m_minimum = s.m_minimum ∧ (s.setValue n).m_maximum = s.m_maximum
      ∧ (s.setValue n).m_value = min (max n s.m_minimum) s.m_maximum := by
  obtain ⟨mn, mx, v, vs, md, ta⟩ := s
  simp only [SpinButton.setValue]
  split_ifs <;> simp_all <;> omega

/-- C9: the SpinButton keeps its minimum at or below its value and its
value at or below its maximum, after construction and after every call
to setMinimum, setMaximum or setValue in any order; setMinimum raises
the maximum and the value when they fall below the new minimum,
setMaximum lowers the minimum and the value when they exceed the new
maximum, and setValue clamps the requested value into the interval
between the bounds. -/
theorem spinButton_bounds_invariant :
    SpinButton.Inv SpinButton.init
    ∧ ∀ (s : SpinButton) (n : Nat), SpinButton.Inv s →
        SpinButton.Inv (s.setMinimum n) ∧ SpinButton.Inv (s.setMaximum n)
        ∧ SpinButton.Inv (s.setValue n)
        ∧ (s.setMinimum n).m_minimum = n
        ∧ (s.setMinimum n).m_maximum = max n s.m_maximum
        ∧ (s.setMinimum n).m_value = max n s.m_value
        ∧ (s.setMaximum n).m_maximum = n
        ∧ (s.setMaximum n).m_minimum = min n s.m_minimum
        ∧ (s.setMaximum n).m_value = min n s.m_value
        ∧ (s.setValue n).m_value = min (max n s.m_minimum) s.m_maximum := by
  constructor
  · refine ⟨?_, ?_⟩ <;> simp [SpinButton.init, SpinButton.Inv]
  · intro s n hinv
    obtain ⟨h1, h2⟩ := hinv
    obtain ⟨hmin1, hmin2, hmin3⟩ := SpinButton.setMinimum_spec s n
    obtain ⟨hmax1, hmax2, hmax3⟩ := SpinButton.setMaximum_spec s n
    obtain ⟨hval1, hval2, hval3⟩ := SpinButton.setValue_spec s n (Nat.le_trans h1 h2)
    refine ⟨⟨?_, ?_⟩, ⟨?_, ?_⟩, ⟨?_, ?_⟩, hmin1, hmin2, hmin3, hmax1, hmax2, hmax3, hval3⟩ <;>
      simp only [hmin1, hmin2, hmin3, hmax1, hmax2, hmax3, hval1, hval2, hval3] <;> omega

/-- C9 witness: the invariant holds concretely after a setMinimum call
pushing both the maximum and the value up. -/
theorem spinButton_bounds_invariant_witness :
    SpinButton.Inv
      ((⟨3, 7, 5, true, false, false⟩ : SpinButton).setMinimum 9) :=
  (spinButton_bounds_invariant.2 ⟨3, 7, 5, true, false, false⟩ 9 ⟨by decide, by decide⟩).1

/-- C10: in SpinButton::leftMouseReleased, after a press, a release on
the same arrow as the press changes the value by exactly one: it is
incremented on the top or right arrow only when the value is below the
maximum and decremented on the bottom or left arrow only when the value
is above the minimum; when the value already sits at the corresponding
bound, or when the release lands on the other arrow, the value stays
unchanged and the ValueChanged callback is not triggered, and the
callback is triggered only when the value actually changed. -/
theorem spinButton_release_behaviour (s : SpinButton) (f b : Bool)
    (hmd : s.m_mouseDown = true) :
    ((s.leftMouseReleased f b).2 = true →
      (s.leftMouseReleased f b).1.m_value ≠ s.m_value)
    ∧ (s.m_mouseDownOnTopArrow = true → s.releaseOnTopArrow f = true →
        (s.m_value < s.m_maximum →
          (s.leftMouseReleased f b).1.m_value = s.m_value + 1
          ∧ (s.leftMouseReleased f b).2 = b)
        ∧ (s.m_maximum ≤ s.m_value →
          (s.leftMouseReleased f b).1.m_value = s.m_value
          ∧ (s.leftMouseReleased f b).2 = false))
    ∧ (s.m_mouseDownOnTopArrow = false → s.releaseOnTopArrow f = false →
        (s.m_minimum < s.m_value →
          (s.leftMouseReleased f b).1.m_value = s.m_value - 1
          ∧ (s.leftMouseReleased f b).1.m_value ≠ s.m_value
          ∧ (s.leftMouseReleased f b).2 = b)
        ∧ (s.m_value ≤ s.m_minimum →
          (s.leftMouseReleased f b).1.m_value = s.m_value
          ∧ (s.leftMouseReleased f b).2 = false))
    ∧ (s.m_mouseDownOnTopArrow ≠ s.releaseOnTopArrow f →
        (s.leftMouseReleased f b).1.m_value = s.m_value
        ∧ (s.leftMouseReleased f b).2 = false) := by
  obtain ⟨mn, mx, v, vs, md, ta⟩ := s
  simp only at hmd
  subst hmd
  cases vs <;> cases f <;> cases ta <;> cases b <;>
    simp only [SpinButton.leftMouseReleased, SpinButton.releaseOnTopArrow] <;>
    split_ifs <;> simp_all <;> omega

/-- C10 witness: a vertical spin button pressed and released on the top
arrow with the value strictly below the maximum increments the value and
triggers the bound callback. -/
theorem spinButton_release_behaviour_witness :
    ((⟨0, 10, 4, true, true, true⟩ : SpinButton).leftMouseReleased true true).1.m_value = 4 + 1
    ∧ ((⟨0, 10, 4, true, true, true⟩ : SpinButton).leftMouseReleased true true).2 = true :=
  ((spinButton_release_behaviour ⟨0, 10, 4, true, true, true⟩ true true rfl).2.1
    rfl rfl).1 (by decide)

/-- C1: for every text and every positive wrap width, the word-wrap
produces lines that each fit within the width except when a line is a
single character too wide to break further, and concatenating the
characters of all produced lines, re-inserting the hard newlines between
paragraphs while ignoring the soft breaks inserted by wrapping,
reconstructs the text exactly. -/
theorem wrap_fits_and_reconstructs (cw : Char → Nat) (W : Nat) (hW : 0 < W)
    (t : List Char) :
    (∀ l ∈ wrap cw W false t, lineWidth cw l ≤ W ∨ ∃ c, l = [c] ∧ W < cw c)
    ∧ joinWithNl ((wrapStruct cw W t).map List.flatten) = t
    ∧ wrap cw W false t = (wrapStruct cw W t).flatten := by
  refine ⟨?_, ?_, by simp [wrap]⟩
  · intro l hl
    simp only [wrap, Bool.false_eq_true, if_false, wrapStruct] at hl
    rw [List.mem_flatten] at hl
    obtain ⟨para, hpara, hlpara⟩ := hl
    rw [List.mem_map] at hpara
    obtain ⟨p, _, hp⟩ := hpara
    exact wrapPara_width cw W p l (by rw [hp]; exact hlpara)
  · have hmap : (wrapStruct cw W t).map List.flatten = splitOnNl t := by
      unfold wrapStruct
      rw [List.map_map]
      calc (splitOnNl t).map (List.flatten ∘ wrapPara cw W)
          = (splitOnNl t).map id := by
            apply List.map_congr_left
            intro p _
            exact wrapPara_flatten cw W p
        _ = splitOnNl t := List.map_id _
    rw [hmap, joinWithNl_splitOnNl]

/-- C1 witness: the property instantiated with unit character widths,
width 3 and a two-word text, including the fit of one concrete produced
line. -/
theorem wrap_fits_and_reconstructs_witness :
    0 < 3
    ∧ joinWithNl ((wrapStruct (fun _ => 1) 3 ("ab cd".toList)).map List.flatten)
        = "ab cd".toList
    ∧ (lineWidth (fun _ => 1) ("ab ".toList) ≤ 3
        ∨ ∃ c, ("ab ".toList) = [c] ∧ 3 < (fun _ => (1 : Nat)) c) :=
  ⟨by decide,
   (wrap_fits_and_reconstructs (fun _ => 1) 3 (by decide) ("ab cd".toList)).2.1,
   (wrap_fits_and_reconstructs (fun _ => 1) 3 (by decide) ("ab cd".toList)).1
     ("ab ".toList) (by decide)⟩

/-- C5: when the horizontal scrollbar policy is Always or Automatic, the
rearranged lines are the text split only at explicit newline characters,
independently of the available width, every produced line is free of
newline characters and re-joining them with newlines gives back the
text; the recorded maximal line width bounds the width of every line and
is attained by one of them. -/
theorem wrap_horizontal_newlines_only (cw : Char → Nat) (W Wp : Nat) (t : List Char)
    (p : ScrollbarPolicy) (hp : horizontalScrollEnabled p = true) :
    wrap cw W (horizontalScrollEnabled p) t = splitOnNl t
    ∧ wrap cw W (horizontalScrollEnabled p) t = wrap cw Wp (horizontalScrollEnabled p) t
    ∧ joinWithNl (wrap cw W (horizontalScrollEnabled p) t) = t
    ∧ (∀ l ∈ wrap cw W (horizontalScrollEnabled p) t, ('\n') ∉ l)
    ∧ (∀ l ∈ wrap cw W (horizontalScrollEnabled p) t,
        lineWidth cw l ≤ maxLineWidth cw (wrap cw W (horizontalScrollEnabled p) t))
    ∧ (∃ l ∈ wrap cw W (horizontalScrollEnabled p) t,
        lineWidth cw l = maxLineWidth cw (wrap cw W (horizontalScrollEnabled p) t)) := by
  rw [hp]
  simp only [wrap, if_true]
  refine ⟨by trivial, by trivial, joinWithNl_splitOnNl t, splitOnNl_no_nl t, ?_, ?_⟩
  · intro l hl
    exact le_foldr_max_of_mem (List.mem_map.mpr ⟨l, hl, rfl⟩)
  · have hne : (splitOnNl t).map (lineWidth cw) ≠ [] := by
      intro h
      exact splitOnNl_ne_nil t (List.map_eq_nil_iff.mp h)
    have hmem := foldr_max_mem hne
    rw [List.mem_map] at hmem
    obtain ⟨l, hl, hw⟩ := hmem
    exact ⟨l, hl, hw⟩

/-- C5 witness: the horizontal mode instantiated at the Always policy on
a two-paragraph text, with the reconstruction equation and the maximal
width bound of one concrete line. -/
theorem wrap_horizontal_newlines_only_witness :
    wrap (fun _ => 2) 5 (horizontalScrollEnabled ScrollbarPolicy.Always) ("ab\ncde".toList)
      = splitOnNl ("ab\ncde".toList)
    ∧ joinWithNl (wrap (fun _ => 2) 5 (horizontalScrollEnabled ScrollbarPolicy.Always)
        ("ab\ncde".toList)) = "ab\ncde".toList
    ∧ lineWidth (fun _ => 2) ("ab".toList)
        ≤ maxLineWidth (fun _ => 2)
            (wrap (fun _ => 2) 5 (horizontalScrollEnabled ScrollbarPolicy.Always)
              ("ab\ncde".toList)) :=
  ⟨(wrap_horizontal_newlines_only (fun _ => 2) 5 9 ("ab\ncde".toList)
      ScrollbarPolicy.Always rfl).1,
   (wrap_horizontal_newlines_only (fun _ => 2) 5 9 ("ab\ncde".toList)
      ScrollbarPolicy.Always rfl).2.2.1,
   (wrap_horizontal_newlines_only (fun _ => 2) 5 9 ("ab\ncde".toList)
      ScrollbarPolicy.Always rfl).2.2.2.2.1 ("ab".toList) (by decide)⟩

/-- C6: wrapping the empty text produces exactly one wrapped line, the
empty one, in both wrapping modes, and getLinesCount returns 1 for a
text box whose text is empty. -/
theorem wrap_empty_single_line (cw : Char → Nat) (W : Nat) (horiz : Bool)
    (st : TextBoxState) (hst : st.m_text = []) :
    wrap cw W horiz [] = [[]]
    ∧ TextBoxState.getLinesCount cw W horiz st = 1 := by
  have hwrap : wrap cw W horiz [] = [[]] := by
    cases horiz <;> simp [wrap, splitOnNl, wrapStruct, wrapPara, wrapParaFuel]
  refine ⟨hwrap, ?_⟩
  unfold TextBoxState.getLinesCount
  rw [hst, hwrap]
  rfl

/-- C6 witness: the freshly constructed text box has empty text and one
wrapped line. -/
theorem wrap_empty_single_line_witness :
    wrap (fun _ => 1) 4 false [] = [[]]
    ∧ TextBoxState.getLinesCount (fun _ => 1) 4 false TextBoxState.init = 1 :=
  wrap_empty_single_line (fun _ => 1) 4 false TextBoxState.init rfl

/-- C8 counterexample: with inner width 100, text "hello world foo" and
a monospaced advance of 10 per character, the word-wrap does not produce
the two lines "hello world" and "foo": the first of those lines would
measure 110 pixels, beyond the available 100. -/
theorem wrap_scenario_counterexample :
    wrap (fun _ => 10) 100 false ("hello world foo".toList)
      ≠ [("hello world".toList), ("foo".toList)] := by
  decide

/-- C8 amended: with inner width 100, text "hello world foo" and a
monospaced advance of 10 per character, the word-wrap splits the text
into exactly the two lines "hello " and "world foo": the break falls
after the last whitespace boundary within the 100-pixel greedy fill,
keeping the trailing space on the first line. -/
theorem wrap_scenario_amended :
    wrap (fun _ => 10) 100 false ("hello world foo".toList)
      = [("hello ".toList), ("world foo".toList)] := by
  decide

theorem TextBoxState.setText_capOk (st : TextBoxState) (t : List Char) :
    (st.setText t).capOk := by
  unfold TextBoxState.setText TextBoxState.capOk
  by_cases h : st.m_maxChars = 0
  · left
    simpa using h
  · right
    simp only [h, if_false]
    simp [List.length_take]

theorem TextBoxState.addText_capOk (st : TextBoxState) (t : List Char) :
    (st.addText t).capOk :=
  TextBoxState.setText_capOk st (st.m_text ++ t)

theorem TextBoxState.setMaximumCharacters_capOk (st : TextBoxState) (m : Nat) :
    (st.setMaximumCharacters m).capOk := by
  unfold TextBoxState.setMaximumCharacters TextBoxState.capOk
  by_cases h : m = 0
  · left
    simpa using h
  · right
    simp only [h, if_false]
    simp [List.length_take]

theorem TextBoxState.selLo_le_selHi (st : TextBoxState) : st.selLo ≤ st.selHi := by
  unfold TextBoxState.selLo TextBoxState.selHi
  omega

theorem TextBoxState.deleteSelected_capOk (st : TextBoxState) (hcap : st.capOk) :
    st.deleteSelectedCharacters.capOk := by
  have hlh := st.selLo_le_selHi
  unfold TextBoxState.deleteSelectedCharacters TextBoxState.capOk
  rcases hcap with h | h
  · left
    simpa using h
  · right
    simp only [List.length_append, List.length_take, List.length_drop]
    omega

theorem TextBoxState.textEntered_capOk (st : TextBoxState) (c : Char) (hcap : st.capOk) :
    (st.textEntered c).capOk := by
  unfold TextBoxState.textEntered
  by_cases hro : st.m_readOnly = true
  · simpa [hro] using hcap
  · simp only [Bool.not_eq_true] at hro
    simp only [hro, Bool.false_eq_true, if_false]
    have hcap1 : (if st.m_selStart = st.m_selEnd then st
        else st.deleteSelectedCharacters).capOk := by
      split_ifs
      · exact hcap
      · exact TextBoxState.deleteSelected_capOk st hcap
    set st1 := if st.m_selStart = st.m_selEnd then st else st.deleteSelectedCharacters with hst1
    by_cases hfull : st1.m_maxChars ≠ 0 ∧ st1.m_maxChars < st1.m_text.length + 1
    · simpa [hfull] using hcap1
    · simp only [hfull, if_false]
      unfold TextBoxState.capOk at hcap1 ⊢
      push_neg at hfull
      rcases hcap1 with h | h
      · left
        simpa using h
      · by_cases hz : st1.m_maxChars = 0
        · left
          simpa using hz
        · right
          have := hfull hz
          simp only [List.length_append, List.length_take, List.length_cons,
            List.length_drop]
          omega

theorem TextBoxState.paste_capOk (st : TextBoxState) (clip : List Char) (hcap : st.capOk) :
    (st.pasteTextFromClipboard clip).capOk := by
  unfold TextBoxState.pasteTextFromClipboard
  by_cases hro : st.m_readOnly = true
  · simpa [hro] using hcap
  · simp only [Bool.not_eq_true] at hro
    simp only [hro, Bool.false_eq_true, if_false]
    have hcap1 : (if st.m_selStart = st.m_selEnd then st
        else st.deleteSelectedCharacters).capOk := by
      split_ifs
      · exact hcap
      · exact TextBoxState.deleteSelected_capOk st hcap
    set st1 := if st.m_selStart = st.m_selEnd then st else st.deleteSelectedCharacters with hst1
    unfold TextBoxState.capOk at hcap1 ⊢
    by_cases hz : st1.m_maxChars = 0
    · left
      simpa using hz
    · right
      rcases hcap1 with h | h
      · exact absurd h hz
      · simp only [hz, if_false, List.length_append, List.length_take, List.length_drop]
        omega

/-- C2: with a maximum of 5 characters, typing six characters one by one
into an empty text box retains exactly the first five; a non-zero
maximum character limit is never exceeded by entering text, appending
text, replacing the text, pasting, or changing the limit; a limit of 0
means unlimited, in which case addText appends without truncation. -/
theorem textbox_max_characters_limit (st : TextBoxState) (hcap : st.capOk) (c : Char)
    (t clip : List Char) (m : Nat) :
    TextBoxState.getText
        (TextBoxState.typeAll (TextBoxState.init.setMaximumCharacters 5) ("abcdef".toList))
      = "abcde".toList
    ∧ (TextBoxState.typeAll (TextBoxState.init.setMaximumCharacters 5)
        ("abcdef".toList)).m_text.length = 5
    ∧ (st.textEntered c).capOk ∧ (st.addText t).capOk ∧ (st.setText t).capOk
    ∧ (st.setMaximumCharacters m).capOk ∧ (st.pasteTextFromClipboard clip).capOk
    ∧ (st.m_maxChars = 0 → (st.addText t).getText = st.getText ++ t) := by
  refine ⟨by decide, by decide, TextBoxState.textEntered_capOk st c hcap,
    TextBoxState.addText_capOk st t, TextBoxState.setText_capOk st t,
    TextBoxState.setMaximumCharacters_capOk st m,
    TextBoxState.paste_capOk st clip hcap, ?_⟩
  intro hz
  simp [TextBoxState.addText, TextBoxState.setText, TextBoxState.getText, hz]

/-- C2 witness: the limit-preservation facts instantiated on a concrete
box holding two characters with a limit of three. -/
theorem textbox_max_characters_limit_witness :
    ((⟨['x', 'y'], 3, 0, 0, false⟩ : TextBoxState).textEntered 'z').capOk
    ∧ ((⟨['x', 'y'], 3, 0, 0, false⟩ : TextBoxState).addText ("abc".toList)).capOk :=
  ⟨(textbox_max_characters_limit ⟨['x', 'y'], 3, 0, 0, false⟩ (Or.inr (by decide)) 'z'
      ("abc".toList) [] 0).2.2.1,
   (textbox_max_characters_limit ⟨['x', 'y'], 3, 0, 0, false⟩ (Or.inr (by decide)) 'z'
      ("abc".toList) [] 0).2.2.2.1⟩

/-- C3: for every text box state and every index, setting the caret
position and reading it back returns the requested index clamped to the
text length, and both selection ends are set to that clamped index, so
an argument beyond the text length silently clamps to the text length. -/
theorem caret_position_clamps (st : TextBoxState) (n : Nat) :
    (st.setCaretPosition n).getCaretPosition = min n st.getText.length
    ∧ (st.setCaretPosition n).getSelectionStart = min n st.getText.length
    ∧ (st.setCaretPosition n).getSelectionEnd = min n st.getText.length :=
  ⟨rfl, rfl, rfl⟩

/-- C4: for selection indices within the text, setSelectedText followed
by getSelectionStart and getSelectionEnd returns exactly the two
requested indices in the requested order, so a backward selection with
the start behind the end is preserved rather than normalized or
rejected. -/
theorem selection_roundtrip (st : TextBoxState) (a b : Nat)
    (ha : a ≤ st.getText.length) (hb : b ≤ st.getText.length) :
    (st.setSelectedText a b).getSelectionStart = a
    ∧ (st.setSelectedText a b).getSelectionEnd = b := by
  unfold TextBoxState.setSelectedText TextBoxState.getSelectionStart
    TextBoxState.getSelectionEnd
  unfold TextBoxState.getText at ha hb
  exact ⟨by simpa using Nat.min_eq_left ha, by simpa using Nat.min_eq_left hb⟩

/-- C4 witness: on a five-character text, the backward selection from
index 4 to index 1 is stored and read back unchanged. -/
theorem selection_roundtrip_witness :
    ((⟨"hello".toList, 0, 0, 0, false⟩ : TextBoxState).setSelectedText 4 1).getSelectionStart
      = 4
    ∧ ((⟨"hello".toList, 0, 0, 0, false⟩ : TextBoxState).setSelectedText 4 1).getSelectionEnd
      = 1 :=
  selection_roundtrip ⟨"hello".toList, 0, 0, 0, false⟩ 4 1 (by decide) (by decide)

/-- C7: in read-only mode, entering a character and the Backspace and
Delete handlers leave the whole state unchanged, while caret movement,
selection, select-all and the selected-text read-out still take effect,
and a direct setText call still replaces the text. -/
theorem readonly_behaviour (st : TextBoxState) (hro : st.m_readOnly = true)
    (c : Char) (n : Nat) (t : List Char) (a b : Nat) :
    st.textEntered c = st
    ∧ st.backspaceKeyPressed = st
    ∧ st.deleteKeyPressed = st
    ∧ (st.setCaretPosition n).getCaretPosition = min n st.getText.length
    ∧ (st.setSelectedText a b).getSelectionStart = min a st.getText.length
    ∧ (st.setSelectedText a b).getSelectionEnd = min b st.getText.length
    ∧ st.selectAllText.getSelectionStart = 0
    ∧ st.selectAllText.getSelectionEnd = st.getText.length
    ∧ st.selectAllText.getSelectedText = st.getText
    ∧ (st.setText t).getText = (if st.m_maxChars = 0 then t else t.take st.m_maxChars)
    ∧ (st.setText t).m_readOnly = true := by
  refine ⟨by simp [TextBoxState.textEntered, hro],
    by simp [TextBoxState.backspaceKeyPressed, hro],
    by simp [TextBoxState.deleteKeyPressed, hro],
    rfl, rfl, rfl, rfl, rfl, ?_, rfl, by simpa [TextBoxState.setText] using hro⟩
  unfold TextBoxState.selectAllText TextBoxState.getSelectedText TextBoxState.selLo
    TextBoxState.selHi TextBoxState.getText
  simp

/-- C7 witness: a concrete read-only box ignores a typed character and a
Backspace press but still replaces its text through setText. -/
theorem readonly_behaviour_witness :
    (⟨"ab".toList, 0, 1, 1, true⟩ : TextBoxState).textEntered 'z'
      = (⟨"ab".toList, 0, 1, 1, true⟩ : TextBoxState)
    ∧ (⟨"ab".toList, 0, 1, 1, true⟩ : TextBoxState).backspaceKeyPressed
      = (⟨"ab".toList, 0, 1, 1, true⟩ : TextBoxState)
    ∧ ((⟨"ab".toList, 0, 1, 1, true⟩ : TextBoxState).setText ("xy".toList)).getText
      = (if (0 : Nat) = 0 then "xy".toList else ("xy".toList).take 0) :=
  ⟨(readonly_behaviour ⟨"ab".toList, 0, 1, 1, true⟩ rfl 'z' 0 ("xy".toList) 0 0).1,
   (readonly_behaviour ⟨"ab".toList, 0, 1, 1, true⟩ rfl 'z' 0 ("xy".toList) 0 0).2.1,
   (readonly_behaviour ⟨"ab".toList, 0, 1, 1, true⟩ rfl 'z' 0 ("xy".toList) 0 0).2.2.2.2.2.2.2.2.2.1⟩

end TGUI
